import Mathlib

set_option maxRecDepth 8192

/-!
Verification of the field-level authenticated-encryption subsystem of the
SecureBank demo: the `encrypt`/`decrypt` utility in
`src/lib/security/encryption.js` and the `encrypt-ssns` migration sweep
recorded in `src/documentation.md` (scripts/db-utils.js).

Strings are represented by their UTF-8 byte values (`List Nat`, entries
below 256); envelope strings are ASCII, so this representation is exact.
The aes-256-gcm cipher itself lives in node's built-in `crypto` module,
outside this repository; it is modelled from the spec as a concrete
authenticated stream cipher (ciphertext = plaintext XOR keystream of the
same length, 16-byte tag bound to key, nonce and ciphertext, single-bit
sensitive).  Everything else — key resolution, hex codec, envelope
layout, error behaviour, the sweep — is translated from the source.
-/

namespace SecureBank

/-- A byte sequence: strings are represented by their UTF-8 byte values. -/
abbrev Bytes := List Nat

/-- Every entry of the list is a byte value (below 256). -/
def ValidBytes (bs : Bytes) : Prop := ∀ b ∈ bs, b < 256

instance : DecidablePred ValidBytes := fun bs =>
  inferInstanceAs (Decidable (∀ b ∈ bs, b < 256))

/-- UTF-8 bytes of the hard-coded fallback key string
`"0123456789abcdef0123456789abcdef"` from `encryption.js` lines 4-8
(`Buffer.from(..., "utf8")` of the literal): 32 ASCII characters, 32 bytes. -/
def defaultKeyBytes : Bytes :=
  [48, 49, 50, 51, 52, 53, 54, 55, 56, 57, 97, 98, 99, 100, 101, 102,
   48, 49, 50, 51, 52, 53, 54, 55, 56, 57, 97, 98, 99, 100, 101, 102]

/-- Key resolution from `encryption.js` lines 4-8:
`Buffer.from(process.env.ENCRYPTION_KEY ?? "0123...def", "utf8")` — the
configured value when present, else the hard-coded fallback.
`Buffer.from` of a string never throws, so resolution is total: the module
performs no length check and has no failure path. -/
def resolveKey (env : Option Bytes) : Bytes := env.getD defaultKeyBytes

/-- Key resolution paired with the console output produced while resolving.
The module body of `encryption.js` contains no logging call, so the log
component is always empty: resolution is silent. -/
def resolveKeyLog (env : Option Bytes) : Bytes × List String := (resolveKey env, [])

/-- ASCII code of the hex digit for a value 0..15 (`Buffer.prototype.toString("hex")`
emits lowercase). -/
def hexDigit (x : Nat) : Nat := if x < 10 then 48 + x else 87 + x

/-- Hex-encode a byte list, two lowercase hex characters per byte
(`Buffer.prototype.toString("hex")`). -/
def hexEnc : Bytes → Bytes
  | [] => []
  | b :: bs => hexDigit (b / 16) :: hexDigit (b % 16) :: hexEnc bs

/-- Value of an ASCII hex character (`Buffer.from(-, "hex")` accepts both cases). -/
def hexVal (c : Nat) : Option Nat :=
  if 48 ≤ c ∧ c ≤ 57 then some (c - 48)
  else if 97 ≤ c ∧ c ≤ 102 then some (c - 87)
  else if 65 ≤ c ∧ c ≤ 70 then some (c - 55)
  else none

/-- Greedy hex decoding as performed by `Buffer.from(-, "hex")`: characters
are consumed pairwise; decoding stops at the first invalid character and a
trailing lone nibble is dropped — invalid hex is NOT rejected. -/
def hexDecode : Bytes → Bytes
  | c1 :: c2 :: rest =>
    match hexVal c1, hexVal c2 with
    | some h, some l => (16 * h + l) :: hexDecode rest
    | _, _ => []
  | _ => []

/-- A byte list that is entirely hex characters of even length (a segment
that hex-decodes losslessly). -/
def isHexStrB (s : Bytes) : Bool :=
  s.all (fun c => (hexVal c).isSome) && s.length % 2 == 0

/-- The ASCII colon, the envelope delimiter of `encryption.js`. -/
def colon : Nat := 58

/-- Split a byte list on a delimiter with JavaScript `String.prototype.split`
semantics: splitting the empty string gives one empty segment, and a
trailing delimiter yields a trailing empty segment. -/
def splitOnB (d : Nat) : Bytes → List Bytes
  | [] => [[]]
  | c :: rest =>
    if c = d then [] :: splitOnB d rest
    else
      match splitOnB d rest with
      | [] => [[c]]
      | s :: ss => (c :: s) :: ss

/-- Modelled from the spec: one mixing step of the pseudorandom byte stream
standing in for node's aes-256-gcm core (the cipher implementation lives in
node's built-in crypto module, outside this repository). -/
def mixStep (a b : Nat) : Nat := (a * 131 + b + 17) % 65521

/-- Modelled from the spec: the keystream seed derived from key and nonce. -/
def ksSeed (key nonce : Bytes) : Nat := (key ++ nonce).foldl mixStep 9973

/-- Modelled from the spec: byte i of the keystream determined by
(key, nonce).  aes-256-gcm runs in counter mode, so ciphertext is plaintext
XOR keystream; the spec fixes ciphertext length = plaintext byte length. -/
def ksByte (key nonce : Bytes) (i : Nat) : Nat := mixStep (ksSeed key nonce) i % 256

/-- XOR a byte list against the keystream starting at stream position i;
this is both the encryption and the decryption direction of the spec's
stream-cipher model. -/
def ctrXor (key nonce : Bytes) : Nat → Bytes → Bytes
  | _, [] => []
  | i, b :: bs => (b ^^^ ksByte key nonce i) :: ctrXor key nonce (i + 1) bs

/-- Contribution of the bytes of a component to the tag: byte b at absolute
position i lands (shifted) in tag byte (i % 16).  Shifting makes the
contribution GF(2)-linear in b, mirroring the linearity of the GHASH layer
that gives aes-256-gcm its single-bit tamper sensitivity. -/
def posMix : Nat → Bytes → Nat
  | _, [] => 0
  | i, b :: bs => (b * 2 ^ (8 * (i % 16))) ^^^ posMix (i + 1) bs

/-- Modelled from the spec: the 16-byte authentication tag as a natural
number below 2^128, bound to key, nonce and ciphertext; any single-bit
change of nonce or ciphertext changes it. -/
def tagOf (key nonce ct : Bytes) : Nat :=
  (key.foldl mixStep 7919) % 2 ^ 128 ^^^ posMix 0 nonce ^^^ posMix 0 ct

/-- Little-endian base-256 digits, n bytes. -/
def toBytesLE : Nat → Nat → Bytes
  | 0, _ => []
  | n + 1, x => x % 256 :: toBytesLE n (x / 256)

/-- Recompose a little-endian byte list into a natural number. -/
def fromBytesLE : Bytes → Nat
  | [] => 0
  | b :: bs => b + 256 * fromBytesLE bs

/-- The 16 bytes of the authentication tag (`cipher.getAuthTag()`). -/
def tagBytes (key nonce ct : Bytes) : Bytes := toBytesLE 16 (tagOf key nonce ct)

/-- The envelope string built by `encrypt` (`encryption.js` lines 21-25):
`[iv.toString("hex"), encrypted.toString("hex"), tag.toString("hex")].join(":")`,
as ASCII bytes. -/
def mkEnvelope (nonce ct tag : Bytes) : Bytes :=
  hexEnc nonce ++ colon :: (hexEnc ct ++ colon :: hexEnc tag)

/-- Body of `encrypt` (`encryption.js` lines 10-26) with the 12-byte nonce
drawn by `randomBytes(12)` passed explicitly (randomness externalized) and
node's cipher replaced by the spec model: ciphertext = plaintext XOR
keystream, tag from `tagBytes`. -/
def encryptRaw (key nonce p : Bytes) : Bytes :=
  mkEnvelope nonce (ctrXor key nonce 0 p) (tagBytes key nonce (ctrXor key nonce 0 p))

/-- Error raised while encrypting: `createCipheriv` rejects a key whose
length is not 32 bytes. -/
inductive CipherError
  | invalidKeyLength
  deriving DecidableEq

/-- The `encrypt` entry point including the error behaviour of
`createCipheriv`: node rejects a wrong-length key when the cipher is
created, i.e. per call — the module performs no earlier check anywhere. -/
def encryptE (key nonce p : Bytes) : Except CipherError Bytes :=
  if key.length = 32 then .ok (encryptRaw key nonce p) else .error .invalidKeyLength

/-- Errors raised while decrypting, in the order the source can raise them:
`missingSegment` is the TypeError from `Buffer.from(undefined, "hex")` when
the split yields fewer than three segments; `invalidIV` and
`invalidKeyLength` come from `createDecipheriv`, which for aes-256-gcm
rejects an empty IV before it validates the key length;
`authenticationFailed` is `decipher.final()` throwing "Unsupported state
or unable to authenticate data" on tag mismatch. -/
inductive DecryptError
  | missingSegment
  | invalidIV
  | invalidKeyLength
  | authenticationFailed
  deriving DecidableEq

/-- Body of `decrypt` (`encryption.js` lines 28-44): split on ":",
destructure the FIRST THREE segments (extra segments are silently ignored;
a missing segment throws before any cipher object exists), hex-decode each
greedily, then run the spec-modelled cipher: the recomputed tag is verified
and only then are the XOR-decrypted bytes released — on tag mismatch
`decipher.final()` throws before `Buffer.concat` returns, so the caller
never sees partial bytes. -/
def decryptE (key s : Bytes) : Except DecryptError Bytes :=
  match splitOnB colon s with
  | s0 :: s1 :: s2 :: _ =>
    let iv := hexDecode s0
    let ct := hexDecode s1
    let tag := hexDecode s2
    if iv.length = 0 then .error .invalidIV
    else if key.length ≠ 32 then .error .invalidKeyLength
    else if tagBytes key iv ct = tag then .ok (ctrXor key iv 0 ct)
    else .error .authenticationFailed
  | _ => .error .missingSegment

/-- The classification guard of the `encrypt-ssns` sweep
(`src/documentation.md`, scripts/db-utils.js):
`user.ssn && !user.ssn.includes(":")` — a record is encrypted exactly when
the stored value is truthy (nonempty) and contains no colon. -/
def shouldEncrypt (v : Bytes) : Bool := !v.isEmpty && !v.contains colon

/-- One user row of the store: (id, ssn field bytes). -/
abbrev Record := Nat × Bytes

/-- The `encrypt-ssns` sweep from `src/documentation.md`: walk the user
rows; when the guard passes, UPDATE the ssn in place with `encrypt(ssn)`;
the record at position i draws the nonce `nonces i` (`randomBytes(12)`
externalized into the stream of nonces). -/
def sweepFrom (key : Bytes) (nonces : Nat → Bytes) : Nat → List Record → List Record
  | _, [] => []
  | i, (rid, v) :: rest =>
    (rid, if shouldEncrypt v then encryptRaw key (nonces i) v else v)
      :: sweepFrom key nonces (i + 1) rest

/-- The whole sweep, starting at record position 0. -/
def sweep (key : Bytes) (nonces : Nat → Bytes) (store : List Record) : List Record :=
  sweepFrom key nonces 0 store

/-- Following the spec's words (§3, §4.4), the structural envelope shape the
spec's classification rule describes: exactly three colon-delimited
segments, each valid hex, decoding to 12 bytes, any length, and 16 bytes
respectively.  Stated separately from the code's guard `shouldEncrypt` so
the two can be compared. -/
def specStructuralEnvelope (v : Bytes) : Bool :=
  match splitOnB colon v with
  | [a, b, c] =>
    isHexStrB a && isHexStrB b && isHexStrB c &&
      ((hexDecode a).length == 12) && ((hexDecode c).length == 16)
  | _ => false

/-- Flip bit k (k < 8) of the byte at index i. -/
def flipBit (bs : Bytes) (i k : Nat) : Bytes := bs.set i (bs.getD i 0 ^^^ 2 ^ k)

/-- Concrete 12-byte nonce used for witnesses. -/
def testNonce : Bytes := [0, 1, 2, 3, 4, 5, 6, 7, 8, 9, 10, 11]

/-- UTF-8 bytes of the sample SSN "123-45-6789" from the repository's tests. -/
def testSSN : Bytes := [49, 50, 51, 45, 52, 53, 45, 54, 55, 56, 57]

/-! ### Hex codec lemmas -/

theorem hexVal_hexDigit {x : Nat} (h : x < 16) : hexVal (hexDigit x) = some x := by
  unfold hexDigit hexVal
  by_cases h10 : x < 10
  · rw [if_pos h10, if_pos (by omega)]
    congr 1
    omega
  · rw [if_neg h10, if_neg (by omega), if_pos (by omega)]
    congr 1
    omega

theorem hexDigit_ne_colon (x : Nat) : hexDigit x ≠ colon := by
  unfold hexDigit colon
  split <;> omega

theorem hexVal_isSome_hexDigit {x : Nat} (h : x < 16) : (hexVal (hexDigit x)).isSome := by
  rw [hexVal_hexDigit h]; rfl

theorem mem_hexEnc_ne_colon {bs : Bytes} {c : Nat} (h : c ∈ hexEnc bs) : c ≠ colon := by
  induction bs with
  | nil => simp [hexEnc] at h
  | cons b bs ih =>
    simp only [hexEnc, List.mem_cons] at h
    rcases h with h | h | h
    · exact h ▸ hexDigit_ne_colon _
    · exact h ▸ hexDigit_ne_colon _
    · exact ih h

theorem mem_hexEnc_isHex {bs : Bytes} (hv : ValidBytes bs) {c : Nat}
    (h : c ∈ hexEnc bs) : (hexVal c).isSome := by
  induction bs with
  | nil => simp [hexEnc] at h
  | cons b bs ih =>
    have hb : b < 256 := hv b (List.mem_cons_self b bs)
    have hv' : ValidBytes bs := fun x hx => hv x (List.mem_cons_of_mem b hx)
    simp only [hexEnc, List.mem_cons] at h
    rcases h with h | h | h
    · exact h ▸ hexVal_isSome_hexDigit (by omega)
    · exact h ▸ hexVal_isSome_hexDigit (Nat.mod_lt b (by omega))
    · exact ih hv' h

theorem hexEnc_length (bs : Bytes) : (hexEnc bs).length = 2 * bs.length := by
  induction bs with
  | nil => rfl
  | cons b bs ih => simp [hexEnc, ih]; omega

theorem hexDecode_hexEnc {bs : Bytes} (hv : ValidBytes bs) : hexDecode (hexEnc bs) = bs := by
  induction bs with
  | nil => rfl
  | cons b bs ih =>
    have hb : b < 256 := hv b (List.mem_cons_self b bs)
    have hv' : ValidBytes bs := fun x hx => hv x (List.mem_cons_of_mem b hx)
    show hexDecode (hexDigit (b / 16) :: hexDigit (b % 16) :: hexEnc bs) = b :: bs
    unfold hexDecode
    rw [hexVal_hexDigit (by omega), hexVal_hexDigit (Nat.mod_lt b (by omega))]
    simp only [ih hv']
    congr 1
    omega

theorem isHexStrB_hexEnc {bs : Bytes} (hv : ValidBytes bs) : isHexStrB (hexEnc bs) = true := by
  unfold isHexStrB
  rw [Bool.and_eq_true, List.all_eq_true]
  refine ⟨fun c hc => mem_hexEnc_isHex hv hc, ?_⟩
  rw [hexEnc_length]
  simp [Nat.mul_mod_right]

/-! ### Split lemmas -/

theorem splitOnB_no_sep {d : Nat} {a : Bytes} (h : ∀ c ∈ a, c ≠ d) :
    splitOnB d a = [a] := by
  induction a with
  | nil => rfl
  | cons c rest ih =>
    have hc : c ≠ d := h c (List.mem_cons_self c rest)
    have h' : ∀ x ∈ rest, x ≠ d := fun x hx => h x (List.mem_cons_of_mem c hx)
    simp only [splitOnB]
    rw [if_neg hc, ih h']

theorem splitOnB_append {d : Nat} {a r : Bytes} (h : ∀ c ∈ a, c ≠ d) :
    splitOnB d (a ++ d :: r) = a :: splitOnB d r := by
  induction a with
  | nil =>
    show splitOnB d (d :: r) = [] :: splitOnB d r
    simp only [splitOnB, if_true]
  | cons c rest ih =>
    have hc : c ≠ d := h c (List.mem_cons_self c rest)
    have h' : ∀ x ∈ rest, x ≠ d := fun x hx => h x (List.mem_cons_of_mem c hx)
    show splitOnB d (c :: (rest ++ d :: r)) = (c :: rest) :: splitOnB d r
    simp only [splitOnB]
    rw [if_neg hc, ih h']

theorem splitOnB_mkEnvelope (n c t : Bytes) :
    splitOnB colon (mkEnvelope n c t) = [hexEnc n, hexEnc c, hexEnc t] := by
  unfold mkEnvelope
  rw [splitOnB_append (fun x hx => mem_hexEnc_ne_colon hx),
      splitOnB_append (fun x hx => mem_hexEnc_ne_colon hx),
      splitOnB_no_sep (fun x hx => mem_hexEnc_ne_colon hx)]

/-! ### Keystream lemmas -/

theorem ksByte_lt (key nonce : Bytes) (i : Nat) : ksByte key nonce i < 256 :=
  Nat.mod_lt _ (by omega)

theorem ctrXor_length (key nonce : Bytes) : ∀ (i : Nat) (bs : Bytes),
    (ctrXor key nonce i bs).length = bs.length := by
  intro i bs
  induction bs generalizing i with
  | nil => rfl
  | cons b bs ih => simp [ctrXor, ih]

theorem ctrXor_ctrXor (key nonce : Bytes) : ∀ (i : Nat) (bs : Bytes),
    ctrXor key nonce i (ctrXor key nonce i bs) = bs := by
  intro i bs
  induction bs generalizing i with
  | nil => rfl
  | cons b bs ih =>
    show (b ^^^ ksByte key nonce i ^^^ ksByte key nonce i) :: _ = b :: bs
    rw [Nat.xor_assoc, Nat.xor_self, Nat.xor_zero, ih]

theorem ctrXor_valid {key nonce bs : Bytes} (hv : ValidBytes bs) (i : Nat) :
    ValidBytes (ctrXor key nonce i bs) := by
  induction bs generalizing i with
  | nil => intro b hb; simp [ctrXor] at hb
  | cons b bs ih =>
    intro x hx
    have hb : b < 256 := hv b (List.mem_cons_self b bs)
    have hv' : ValidBytes bs := fun y hy => hv y (List.mem_cons_of_mem b hy)
    rcases List.mem_cons.mp hx with h | h
    · subst h
      exact Nat.xor_lt_two_pow (n := 8) hb (ksByte_lt key nonce i)
    · exact ih hv' (i + 1) x h

/-! ### Byte decomposition lemmas -/

theorem toBytesLE_length (n x : Nat) : (toBytesLE n x).length = n := by
  induction n generalizing x with
  | zero => rfl
  | succ n ih => simp [toBytesLE, ih]

theorem toBytesLE_valid (n x : Nat) : ValidBytes (toBytesLE n x) := by
  induction n generalizing x with
  | zero => intro b hb; simp [toBytesLE] at hb
  | succ n ih =>
    intro b hb
    rcases List.mem_cons.mp hb with h | h
    · subst h; exact Nat.mod_lt _ (by omega)
    · exact ih (x / 256) b h

theorem fromBytesLE_toBytesLE (n x : Nat) : fromBytesLE (toBytesLE n x) = x % 256 ^ n := by
  induction n generalizing x with
  | zero => simp [toBytesLE, fromBytesLE, Nat.mod_one]
  | succ n ih =>
    show x % 256 + 256 * fromBytesLE (toBytesLE n (x / 256)) = x % 256 ^ (n + 1)
    rw [ih, Nat.pow_succ', Nat.mod_mul]

theorem toBytesLE_inj {n x y : Nat} (hx : x < 256 ^ n) (hy : y < 256 ^ n)
    (h : toBytesLE n x = toBytesLE n y) : x = y := by
  have h1 := fromBytesLE_toBytesLE n x
  have h2 := fromBytesLE_toBytesLE n y
  rw [h, h2] at h1
  rw [Nat.mod_eq_of_lt hx, Nat.mod_eq_of_lt hy] at h1
  omega

/-! ### XOR helper lemmas -/

theorem xor_left_comm (a b c : Nat) : a ^^^ (b ^^^ c) = b ^^^ (a ^^^ c) := by
  rw [← Nat.xor_assoc, Nat.xor_comm a b, Nat.xor_assoc]

theorem xor_mul_two_pow (a b s : Nat) : (a ^^^ b) * 2 ^ s = a * 2 ^ s ^^^ b * 2 ^ s := by
  rw [← Nat.shiftLeft_eq, ← Nat.shiftLeft_eq, ← Nat.shiftLeft_eq]
  apply Nat.eq_of_testBit_eq
  intro i
  rw [Nat.testBit_shiftLeft, Nat.testBit_xor, Nat.testBit_xor,
      Nat.testBit_shiftLeft, Nat.testBit_shiftLeft]
  by_cases h : s ≤ i <;> simp [h]

theorem xor_ne_self {x d : Nat} (hd : d ≠ 0) : x ^^^ d ≠ x := by
  intro h
  apply hd
  calc d = x ^^^ x ^^^ d := by rw [Nat.xor_self, Nat.zero_xor]
  _ = x ^^^ (x ^^^ d) := by rw [Nat.xor_assoc]
  _ = x ^^^ x := by rw [h]
  _ = 0 := Nat.xor_self x

/-! ### Tag lemmas -/

theorem posMix_lt {bs : Bytes} (hv : ValidBytes bs) : ∀ i : Nat, posMix i bs < 2 ^ 128 := by
  induction bs with
  | nil => intro i; simp [posMix]
  | cons b rest ih =>
    intro i
    have hb : b < 256 := hv b (List.mem_cons_self b rest)
    have hv' : ValidBytes rest := fun y hy => hv y (List.mem_cons_of_mem b hy)
    show (b * 2 ^ (8 * (i % 16))) ^^^ posMix (i + 1) rest < 2 ^ 128
    apply Nat.xor_lt_two_pow
    · have h1 : b * 2 ^ (8 * (i % 16)) < 2 ^ 8 * 2 ^ (8 * (i % 16)) :=
        Nat.mul_lt_mul_of_lt_of_le hb (Nat.le_refl _) (Nat.two_pow_pos _)
      have h2 : (2 : Nat) ^ 8 * 2 ^ (8 * (i % 16)) ≤ 2 ^ 128 := by
        rw [← Nat.pow_add]
        apply Nat.pow_le_pow_right (by omega)
        have := Nat.mod_lt i (y := 16) (by omega)
        omega
      omega
    · exact ih hv' (i + 1)

theorem tagOf_lt {key nonce ct : Bytes} (hn : ValidBytes nonce) (hc : ValidBytes ct) :
    tagOf key nonce ct < 2 ^ 128 := by
  unfold tagOf
  exact Nat.xor_lt_two_pow
    (Nat.xor_lt_two_pow (Nat.mod_lt _ (Nat.two_pow_pos 128)) (posMix_lt hn 0))
    (posMix_lt hc 0)

theorem posMix_set {bs : Bytes} : ∀ {i : Nat} (j : Nat) (h : i < bs.length) (m : Nat),
    posMix j (bs.set i (bs.get ⟨i, h⟩ ^^^ m)) =
      posMix j bs ^^^ m * 2 ^ (8 * ((j + i) % 16)) := by
  induction bs with
  | nil => intro i j h m; simp at h
  | cons b rest ih =>
    intro i j h m
    cases i with
    | zero =>
      show posMix j ((b ^^^ m) :: rest) = posMix j (b :: rest) ^^^ m * 2 ^ (8 * ((j + 0) % 16))
      show ((b ^^^ m) * 2 ^ (8 * (j % 16))) ^^^ posMix (j + 1) rest =
        ((b * 2 ^ (8 * (j % 16))) ^^^ posMix (j + 1) rest) ^^^ m * 2 ^ (8 * ((j + 0) % 16))
      rw [xor_mul_two_pow]
      simp [Nat.xor_assoc, Nat.xor_comm, xor_left_comm]
    | succ i' =>
      have h' : i' < rest.length := by simpa using h
      show posMix j (b :: rest.set i' (rest.get ⟨i', h'⟩ ^^^ m)) =
        posMix j (b :: rest) ^^^ m * 2 ^ (8 * ((j + (i' + 1)) % 16))
      show (b * 2 ^ (8 * (j % 16))) ^^^ posMix (j + 1) (rest.set i' (rest.get ⟨i', h'⟩ ^^^ m)) =
        ((b * 2 ^ (8 * (j % 16))) ^^^ posMix (j + 1) rest) ^^^ m * 2 ^ (8 * ((j + (i' + 1)) % 16))
      rw [ih (j + 1) h' m]
      have harith : j + 1 + i' = j + (i' + 1) := by omega
      rw [harith, ← Nat.xor_assoc]

theorem getD_lt_of_valid {bs : Bytes} (hv : ValidBytes bs) (i : Nat) : bs.getD i 0 < 256 := by
  rcases Nat.lt_or_ge i bs.length with h | h
  · have : bs.getD i 0 = bs.get ⟨i, h⟩ := by
      simp [List.getD_eq_getElem?_getD, List.getElem?_eq_getElem h]
    rw [this]
    exact hv _ (List.get_mem bs i h)
  · rw [List.getD_eq_default _ _ (by omega)]
    omega

theorem posMix_flipBit {bs : Bytes} {i : Nat} (h : i < bs.length) (k j : Nat) :
    posMix j (flipBit bs i k) = posMix j bs ^^^ 2 ^ k * 2 ^ (8 * ((j + i) % 16)) := by
  unfold flipBit
  have hgd : bs.getD i 0 = bs.get ⟨i, h⟩ := by
    simp [List.getD_eq_getElem?_getD, List.getElem?_eq_getElem h]
  rw [hgd, posMix_set j h (2 ^ k)]

theorem flipBit_valid {bs : Bytes} (hv : ValidBytes bs) (i : Nat) {k : Nat} (hk : k < 8) :
    ValidBytes (flipBit bs i k) := by
  intro x hx
  unfold flipBit at hx
  rcases List.mem_or_eq_of_mem_set hx with h | h
  · exact hv x h
  · subst h
    exact Nat.xor_lt_two_pow (n := 8) (getD_lt_of_valid hv i)
      (Nat.pow_lt_pow_right (by omega) hk)

theorem flipBit_length (bs : Bytes) (i k : Nat) : (flipBit bs i k).length = bs.length :=
  List.length_set bs ..

theorem flipBit_ne {bs : Bytes} {i : Nat} (h : i < bs.length) (k : Nat) :
    flipBit bs i k ≠ bs := by
  intro he
  have hga : (flipBit bs i k).getD i 0 = bs.getD i 0 ^^^ 2 ^ k := by
    unfold flipBit
    simp [List.getD_eq_getElem?_getD, List.getElem?_set_self, h]
  rw [he] at hga
  exact xor_ne_self (Nat.two_pow_pos k).ne' hga.symm

theorem tagOf_flip_nonce {key nonce ct : Bytes} {i : Nat} (h : i < nonce.length) (k : Nat) :
    tagOf key (flipBit nonce i k) ct = tagOf key nonce ct ^^^ 2 ^ k * 2 ^ (8 * (i % 16)) := by
  unfold tagOf
  rw [posMix_flipBit h k 0, Nat.zero_add]
  simp [Nat.xor_assoc, Nat.xor_comm, xor_left_comm]

theorem tagOf_flip_ct {key nonce ct : Bytes} {i : Nat} (h : i < ct.length) (k : Nat) :
    tagOf key nonce (flipBit ct i k) = tagOf key nonce ct ^^^ 2 ^ k * 2 ^ (8 * (i % 16)) := by
  unfold tagOf
  rw [posMix_flipBit h k 0, Nat.zero_add, ← Nat.xor_assoc]

theorem two_pow_mul_two_pow_ne_zero (k s : Nat) : 2 ^ k * 2 ^ s ≠ 0 :=
  (Nat.mul_pos (Nat.two_pow_pos k) (Nat.two_pow_pos s)).ne'

theorem tagBytes_flip_nonce_ne {key nonce ct : Bytes} (hvn : ValidBytes nonce)
    (hvc : ValidBytes ct) {i : Nat} (h : i < nonce.length) {k : Nat} (hk : k < 8) :
    tagBytes key (flipBit nonce i k) ct ≠ tagBytes key nonce ct := by
  intro he
  have h1 : tagOf key (flipBit nonce i k) ct = tagOf key nonce ct :=
    toBytesLE_inj (tagOf_lt (flipBit_valid hvn i hk) hvc) (tagOf_lt hvn hvc) he
  rw [tagOf_flip_nonce h k] at h1
  exact xor_ne_self (two_pow_mul_two_pow_ne_zero k _) h1

theorem tagBytes_flip_ct_ne {key nonce ct : Bytes} (hvn : ValidBytes nonce)
    (hvc : ValidBytes ct) {i : Nat} (h : i < ct.length) {k : Nat} (hk : k < 8) :
    tagBytes key nonce (flipBit ct i k) ≠ tagBytes key nonce ct := by
  intro he
  have h1 : tagOf key nonce (flipBit ct i k) = tagOf key nonce ct :=
    toBytesLE_inj (tagOf_lt hvn (flipBit_valid hvc i hk)) (tagOf_lt hvn hvc) he
  rw [tagOf_flip_ct h k] at h1
  exact xor_ne_self (two_pow_mul_two_pow_ne_zero k _) h1

theorem tagBytes_valid (key nonce ct : Bytes) : ValidBytes (tagBytes key nonce ct) :=
  toBytesLE_valid _ _

theorem tagBytes_length (key nonce ct : Bytes) : (tagBytes key nonce ct).length = 16 :=
  toBytesLE_length _ _

/-! ### Evaluating decrypt on a well-formed envelope -/

theorem decryptE_mkEnvelope {key n c t : Bytes} (hk : key.length = 32)
    (hn : ValidBytes n) (hne : n ≠ []) (hc : ValidBytes c) (ht : ValidBytes t) :
    decryptE key (mkEnvelope n c t) =
      if tagBytes key n c = t then .ok (ctrXor key n 0 c)
      else .error .authenticationFailed := by
  unfold decryptE
  rw [splitOnB_mkEnvelope]
  simp only [hexDecode_hexEnc hn, hexDecode_hexEnc hc, hexDecode_hexEnc ht]
  rw [if_neg (by simp [List.length_eq_zero, hne]), if_neg (by omega)]

/-- Shared round-trip lemma: decrypting the envelope produced by encrypt
gives back the plaintext bytes. -/
theorem decrypt_encryptRaw {key nonce p : Bytes} (hk : key.length = 32)
    (hn : ValidBytes nonce) (hne : nonce ≠ []) (hp : ValidBytes p) :
    decryptE key (encryptRaw key nonce p) = .ok p := by
  unfold encryptRaw
  rw [decryptE_mkEnvelope hk hn hne (ctrXor_valid hp 0) (tagBytes_valid key nonce _)]
  rw [if_pos rfl, ctrXor_ctrXor]

/-! ### Envelope and nonce injectivity -/

theorem colon_mem_encryptRaw (key nonce p : Bytes) : colon ∈ encryptRaw key nonce p := by
  unfold encryptRaw mkEnvelope
  exact List.mem_append_right _ (List.mem_cons_self _ _)

theorem encryptRaw_nonce_inj {key n1 n2 p : Bytes} (hv1 : ValidBytes n1)
    (hv2 : ValidBytes n2) (he : encryptRaw key n1 p = encryptRaw key n2 p) :
    n1 = n2 := by
  have h := congrArg (splitOnB colon) he
  unfold encryptRaw at h
  rw [splitOnB_mkEnvelope, splitOnB_mkEnvelope] at h
  have hh : hexEnc n1 = hexEnc n2 := by
    injection h with h1 _
  have := congrArg hexDecode hh
  rwa [hexDecode_hexEnc hv1, hexDecode_hexEnc hv2] at this

/-! ### Sweep lemmas -/

theorem shouldEncrypt_encryptRaw (key nonce v : Bytes) :
    shouldEncrypt (encryptRaw key nonce v) = false := by
  unfold shouldEncrypt
  have hmem := colon_mem_encryptRaw key nonce v
  have : (encryptRaw key nonce v).contains colon = true := by
    simpa using hmem
  rw [this]
  simp

theorem sweepFrom_length (key : Bytes) (nonces : Nat → Bytes) :
    ∀ (j : Nat) (store : List Record), (sweepFrom key nonces j store).length = store.length := by
  intro j store
  induction store generalizing j with
  | nil => rfl
  | cons r rest ih =>
    obtain ⟨rid, v⟩ := r
    simp [sweepFrom, ih]

theorem sweep_length (key : Bytes) (nonces : Nat → Bytes) (store : List Record) :
    (sweep key nonces store).length = store.length :=
  sweepFrom_length key nonces 0 store

theorem sweepFrom_get (key : Bytes) (nonces : Nat → Bytes) :
    ∀ (store : List Record) (j i : Nat) (h : i < store.length),
    (sweepFrom key nonces j store).get ⟨i, by rw [sweepFrom_length]; exact h⟩ =
      ((store.get ⟨i, h⟩).1,
        if shouldEncrypt (store.get ⟨i, h⟩).2
        then encryptRaw key (nonces (j + i)) (store.get ⟨i, h⟩).2
        else (store.get ⟨i, h⟩).2) := by
  intro store
  induction store with
  | nil => intro j i h; simp at h
  | cons r rest ih =>
    intro j i h
    obtain ⟨rid, v⟩ := r
    cases i with
    | zero => simp [sweepFrom]
    | succ i' =>
      have h' : i' < rest.length := by simpa using h
      have := ih (j + 1) i' h'
      simp only [sweepFrom, List.get_cons_succ]
      rw [this]
      have harith : j + 1 + i' = j + (i' + 1) := by omega
      rw [harith]

theorem sweep_get (key : Bytes) (nonces : Nat → Bytes) (store : List Record)
    (i : Nat) (h : i < store.length) :
    (sweep key nonces store).get ⟨i, by rw [sweep_length]; exact h⟩ =
      ((store.get ⟨i, h⟩).1,
        if shouldEncrypt (store.get ⟨i, h⟩).2
        then encryptRaw key (nonces i) (store.get ⟨i, h⟩).2
        else (store.get ⟨i, h⟩).2) := by
  have := sweepFrom_get key nonces store 0 i h
  rw [Nat.zero_add] at this
  exact this

theorem sweepFrom_idem (key : Bytes) (nonces1 nonces2 : Nat → Bytes) :
    ∀ (store : List Record) (j1 j2 : Nat),
    sweepFrom key nonces2 j2 (sweepFrom key nonces1 j1 store) =
      sweepFrom key nonces1 j1 store := by
  intro store
  induction store with
  | nil => intro j1 j2; rfl
  | cons r rest ih =>
    intro j1 j2
    obtain ⟨rid, v⟩ := r
    by_cases hv : shouldEncrypt v
    · simp only [sweepFrom, if_pos hv]
      rw [if_neg (by rw [shouldEncrypt_encryptRaw]; exact Bool.false_ne_true)]
      rw [ih (j1 + 1) (j2 + 1)]
    · simp only [sweepFrom, if_neg hv]
      rw [ih (j1 + 1) (j2 + 1)]

deriving instance DecidableEq for Except

theorem ne_nil_of_length12 {l : Bytes} (h : l.length = 12) : l ≠ [] := by
  intro he
  rw [he] at h
  simp at h

/-! ### The claims -/

/-- C1: for every plaintext p — including the empty byte sequence and
multi-byte UTF-8 text, both covered since p ranges over all byte lists —
encrypt succeeds on the 32-byte process key and decrypting the produced
envelope returns exactly the original plaintext bytes, which stand for the
UTF-8 encoding of the original string, so the text decodes identically on
both sides. -/
theorem claim1_roundtrip (key nonce p : Bytes) (hk : key.length = 32)
    (hn : nonce.length = 12) (hvn : ValidBytes nonce) (hvp : ValidBytes p) :
    encryptE key nonce p = .ok (encryptRaw key nonce p) ∧
    decryptE key (encryptRaw key nonce p) = .ok p := by
  constructor
  · unfold encryptE
    rw [if_pos hk]
  · exact decrypt_encryptRaw hk hvn (ne_nil_of_length12 hn) hvp

/-- Witness for C1 at the resolved default key, a concrete nonce and a
multi-byte UTF-8 plaintext (0xC3 0xA9 is the encoding of a two-byte
character). -/
theorem claim1_roundtrip_witness :
    decryptE defaultKeyBytes (encryptRaw defaultKeyBytes testNonce [195, 169, 33]) =
      .ok [195, 169, 33] :=
  (claim1_roundtrip defaultKeyBytes testNonce [195, 169, 33]
    (by decide) (by decide) (by decide) (by decide)).2

/-- C2 counterexample: an input that does NOT consist of exactly three
colon-delimited segments — a valid envelope with a fourth segment "ff"
appended — does not fail at all: decrypt ignores the extra segment, invokes
the cipher and succeeds, so no MalformedEnvelope rejection exists. -/
theorem claim2_counterexample :
    (splitOnB colon (encryptRaw defaultKeyBytes testNonce testSSN ++ [colon, 102, 102])).length = 4 ∧
    decryptE defaultKeyBytes (encryptRaw defaultKeyBytes testNonce testSSN ++ [colon, 102, 102]) =
      .ok testSSN := by
  exact ⟨by decide, by decide⟩

/-- C2 amended: decrypt performs no structural validation; it splits on the
colon and destructures only the first three segments.  An input with fewer
than three segments fails before any cipher work with the error of reading
a missing segment (a TypeError, not a MalformedEnvelope kind, which the
code does not define); an input with extra segments is processed as if the
segments beyond the third were absent, and non-hex characters are never
rejected (hex decoding is greedy). -/
theorem claim2_amended_no_validation :
    (∀ key s : Bytes, (splitOnB colon s).length < 3 →
      decryptE key s = .error .missingSegment) ∧
    (∀ key n c t extra : Bytes,
      (∀ x ∈ n, x ≠ colon) → (∀ x ∈ c, x ≠ colon) → (∀ x ∈ t, x ≠ colon) →
      decryptE key (n ++ colon :: (c ++ colon :: (t ++ colon :: extra))) =
        decryptE key (n ++ colon :: (c ++ colon :: t))) := by
  constructor
  · intro key s hlen
    unfold decryptE
    cases hsp : splitOnB colon s with
    | nil => rfl
    | cons s0 tl =>
      cases tl with
      | nil => rfl
      | cons s1 tl2 =>
        cases tl2 with
        | nil => rfl
        | cons s2 tl3 =>
          rw [hsp] at hlen
          simp at hlen
          omega
  · intro key n c t extra hn hc ht
    unfold decryptE
    rw [splitOnB_append hn, splitOnB_append hc, splitOnB_append ht,
        splitOnB_append hn, splitOnB_append hc, splitOnB_no_sep ht]

/-- Witness for C2 amended: a single-segment input (no colon at all) fails
with the missing-segment error, and appending ":ff" to a three-segment
envelope does not change the result of decrypt. -/
theorem claim2_amended_witness :
    decryptE defaultKeyBytes [97, 98] = .error .missingSegment ∧
    decryptE defaultKeyBytes ([97] ++ colon :: ([98] ++ colon :: ([99] ++ colon :: [102, 102]))) =
      decryptE defaultKeyBytes ([97] ++ colon :: ([98] ++ colon :: [99])) :=
  ⟨claim2_amended_no_validation.1 defaultKeyBytes [97, 98] (by decide),
   claim2_amended_no_validation.2 defaultKeyBytes [97] [98] [99] [102, 102]
     (by decide) (by decide) (by decide)⟩

/-- C3: flipping any single bit (bit k of byte i) of the decoded nonce,
ciphertext or tag of an envelope produced by encrypt makes decrypt fail
with the authentication error — an error value, so no bytes at all are
returned — and that error is distinct from the missing-segment parse
error. -/
theorem claim3_tamper_detection (key nonce p : Bytes) (i k : Nat)
    (hk : key.length = 32) (hn : nonce.length = 12) (hvn : ValidBytes nonce)
    (hvp : ValidBytes p) (hk8 : k < 8) :
    (i < 12 → decryptE key (mkEnvelope (flipBit nonce i k) (ctrXor key nonce 0 p)
      (tagBytes key nonce (ctrXor key nonce 0 p))) = .error .authenticationFailed) ∧
    (i < p.length → decryptE key (mkEnvelope nonce (flipBit (ctrXor key nonce 0 p) i k)
      (tagBytes key nonce (ctrXor key nonce 0 p))) = .error .authenticationFailed) ∧
    (i < 16 → decryptE key (mkEnvelope nonce (ctrXor key nonce 0 p)
      (flipBit (tagBytes key nonce (ctrXor key nonce 0 p)) i k)) = .error .authenticationFailed) ∧
    DecryptError.authenticationFailed ≠ DecryptError.missingSegment := by
  have hvc : ValidBytes (ctrXor key nonce 0 p) := ctrXor_valid hvp 0
  refine ⟨fun hi => ?_, fun hi => ?_, fun hi => ?_, by decide⟩
  · have hne : flipBit nonce i k ≠ [] := by
      apply ne_nil_of_length12
      rw [flipBit_length]
      exact hn
    rw [decryptE_mkEnvelope hk (flipBit_valid hvn i hk8) hne hvc (tagBytes_valid key nonce _)]
    rw [if_neg (tagBytes_flip_nonce_ne hvn hvc (by omega) hk8)]
  · rw [decryptE_mkEnvelope hk hvn (ne_nil_of_length12 hn)
      (flipBit_valid hvc i hk8) (tagBytes_valid key nonce _)]
    have hict : i < (ctrXor key nonce 0 p).length := by
      rw [ctrXor_length]
      exact hi
    rw [if_neg (tagBytes_flip_ct_ne hvn hvc hict hk8)]
  · rw [decryptE_mkEnvelope hk hvn (ne_nil_of_length12 hn) hvc
      (flipBit_valid (tagBytes_valid key nonce _) i hk8)]
    have hit : i < (tagBytes key nonce (ctrXor key nonce 0 p)).length := by
      rw [tagBytes_length]
      exact hi
    rw [if_neg (fun he => flipBit_ne hit k he.symm)]

/-- Witness for C3 at the default key, concrete nonce and plaintext, bit 0
of byte 0 of each component. -/
theorem claim3_tamper_witness :
    decryptE defaultKeyBytes (mkEnvelope (flipBit testNonce 0 0)
      (ctrXor defaultKeyBytes testNonce 0 testSSN)
      (tagBytes defaultKeyBytes testNonce (ctrXor defaultKeyBytes testNonce 0 testSSN))) =
        .error .authenticationFailed ∧
    decryptE defaultKeyBytes (mkEnvelope testNonce
      (flipBit (ctrXor defaultKeyBytes testNonce 0 testSSN) 0 0)
      (tagBytes defaultKeyBytes testNonce (ctrXor defaultKeyBytes testNonce 0 testSSN))) =
        .error .authenticationFailed ∧
    decryptE defaultKeyBytes (mkEnvelope testNonce
      (ctrXor defaultKeyBytes testNonce 0 testSSN)
      (flipBit (tagBytes defaultKeyBytes testNonce (ctrXor defaultKeyBytes testNonce 0 testSSN)) 0 0)) =
        .error .authenticationFailed := by
  have h := claim3_tamper_detection defaultKeyBytes testNonce testSSN 0 0
    (by decide) (by decide) (by decide) (by decide) (by decide)
  exact ⟨h.1 (by decide), h.2.1 (by decide), h.2.2.1 (by decide)⟩

/-- C4: two encrypt calls on the same plaintext that draw distinct nonces
produce different envelope strings, and both envelopes decrypt back to the
original plaintext. -/
theorem claim4_nonce_nondeterminism (key n1 n2 p : Bytes) (hk : key.length = 32)
    (h1 : n1.length = 12) (h2 : n2.length = 12) (hv1 : ValidBytes n1)
    (hv2 : ValidBytes n2) (hvp : ValidBytes p) (hne : n1 ≠ n2) :
    encryptRaw key n1 p ≠ encryptRaw key n2 p ∧
    decryptE key (encryptRaw key n1 p) = .ok p ∧
    decryptE key (encryptRaw key n2 p) = .ok p :=
  ⟨fun he => hne (encryptRaw_nonce_inj hv1 hv2 he),
   decrypt_encryptRaw hk hv1 (ne_nil_of_length12 h1) hvp,
   decrypt_encryptRaw hk hv2 (ne_nil_of_length12 h2) hvp⟩

/-- Witness for C4 at the default key, the test SSN "987-65-4321" of the
repository's tests, and two concrete distinct nonces. -/
theorem claim4_nonce_nondeterminism_witness :
    encryptRaw defaultKeyBytes testNonce [57, 56, 55, 45, 54, 53, 45, 52, 51, 50, 49] ≠
      encryptRaw defaultKeyBytes [99, 1, 2, 3, 4, 5, 6, 7, 8, 9, 10, 11] [57, 56, 55, 45, 54, 53, 45, 52, 51, 50, 49] ∧
    decryptE defaultKeyBytes (encryptRaw defaultKeyBytes testNonce [57, 56, 55, 45, 54, 53, 45, 52, 51, 50, 49]) =
      .ok [57, 56, 55, 45, 54, 53, 45, 52, 51, 50, 49] :=
  have h := claim4_nonce_nondeterminism defaultKeyBytes testNonce
    [99, 1, 2, 3, 4, 5, 6, 7, 8, 9, 10, 11] [57, 56, 55, 45, 54, 53, 45, 52, 51, 50, 49]
    (by decide) (by decide) (by decide) (by decide) (by decide) (by decide) (by decide)
  ⟨h.1, h.2.1⟩

/-- C5 counterexample: the value "a:b" (bytes [97, 58, 98]) is classified
as already protected by the sweep (its guard declines to encrypt it) even
though it does not match the envelope's structural shape, so the claimed
equivalence between the classification and the structural check is false;
the sweep indeed leaves the record untouched. -/
theorem claim5_counterexample :
    shouldEncrypt [97, 58, 98] = false ∧
    specStructuralEnvelope [97, 58, 98] = false ∧
    sweep defaultKeyBytes (fun _ => testNonce) [(1, [97, 58, 98])] = [(1, [97, 58, 98])] := by
  exact ⟨by decide, by decide, by decide⟩

/-- C5 amended: the sweep classifies a value as already protected exactly
when it is empty or contains at least one colon anywhere — a crude
substring check, not the envelope's structural shape — and each record is
rewritten in place: a skipped value is kept, a value classified as
plaintext is replaced by the envelope of exactly one encrypt call. -/
theorem claim5_amended_classification :
    (∀ v : Bytes, shouldEncrypt v = false ↔ (v = [] ∨ v.contains colon = true)) ∧
    (∀ (key : Bytes) (nonces : Nat → Bytes) (store : List Record),
      (sweep key nonces store).length = store.length) ∧
    (∀ (key : Bytes) (nonces : Nat → Bytes) (store : List Record) (i : Nat)
      (h : i < store.length),
      (sweep key nonces store).get ⟨i, by rw [sweep_length]; exact h⟩ =
        ((store.get ⟨i, h⟩).1,
          if shouldEncrypt (store.get ⟨i, h⟩).2
          then encryptRaw key (nonces i) (store.get ⟨i, h⟩).2
          else (store.get ⟨i, h⟩).2)) := by
  refine ⟨?_, sweep_length, sweep_get⟩
  intro v
  cases v with
  | nil => simp [shouldEncrypt]
  | cons b rest =>
    cases hb : (b :: rest).contains colon <;>
      simp only [shouldEncrypt, List.isEmpty_cons, hb] <;> simp

/-- Witness for C5 amended on a concrete two-record store: one colon-free
plaintext (encrypted in place) and one colon-containing value (kept). -/
theorem claim5_amended_witness :
    (shouldEncrypt [97, 58, 98] = false ↔ ([97, 58, 98] = ([] : Bytes) ∨ [97, 58, 98].contains colon = true)) ∧
    (sweep defaultKeyBytes (fun _ => testNonce) [(1, testSSN), (2, [97, 58, 98])]).get
        ⟨0, by decide⟩ =
      (1, encryptRaw defaultKeyBytes testNonce testSSN) := by
  constructor
  · exact claim5_amended_classification.1 [97, 58, 98]
  · have h := claim5_amended_classification.2.2 defaultKeyBytes (fun _ => testNonce)
      [(1, testSSN), (2, [97, 58, 98])] 0 (by decide)
    rw [h]
    decide

/-- C6 counterexample: a store mixing an already-encrypted value and the
plaintext "a:b" is left completely unchanged by the sweep (so idempotence
holds), yet the originally-plaintext value "a:b" in the final store does
not decrypt back to itself — decrypt errors on it — refuting the claim's
decrypt-back conjunct. -/
theorem claim6_counterexample :
    sweep defaultKeyBytes (fun _ => testNonce)
        [(1, [97, 58, 98]), (2, encryptRaw defaultKeyBytes testNonce testSSN)] =
      [(1, [97, 58, 98]), (2, encryptRaw defaultKeyBytes testNonce testSSN)] ∧
    decryptE defaultKeyBytes [97, 58, 98] = .error .missingSegment := by
  exact ⟨by decide, by decide⟩

/-- C6 amended: the sweep is idempotent as a store transformation — a
second run (with any fresh randomness) changes nothing and raises no error,
the model being total — and every value the sweep actually classifies as
plaintext (nonempty, colon-free) is encrypted in place and decrypts back to
its original bytes; values misclassified because they contain a colon are
not covered, as the counterexample forces. -/
theorem claim6_amended_idempotence :
    (∀ (key : Bytes) (nonces1 nonces2 : Nat → Bytes) (store : List Record),
      sweep key nonces2 (sweep key nonces1 store) = sweep key nonces1 store) ∧
    (∀ (key : Bytes) (nonces : Nat → Bytes) (store : List Record) (i : Nat)
      (h : i < store.length), key.length = 32 →
      (∀ j, (nonces j).length = 12) → (∀ j, ValidBytes (nonces j)) →
      ValidBytes (store.get ⟨i, h⟩).2 → shouldEncrypt (store.get ⟨i, h⟩).2 = true →
      decryptE key ((sweep key nonces store).get ⟨i, by rw [sweep_length]; exact h⟩).2 =
        .ok (store.get ⟨i, h⟩).2) := by
  constructor
  · intro key n1 n2 store
    exact sweepFrom_idem key n1 n2 store 0 0
  · intro key nonces store i h hk hlen hval hv hse
    rw [sweep_get key nonces store i h]
    show decryptE key (if shouldEncrypt (store.get ⟨i, h⟩).2
      then encryptRaw key (nonces i) (store.get ⟨i, h⟩).2 else (store.get ⟨i, h⟩).2) =
        .ok (store.get ⟨i, h⟩).2
    rw [if_pos hse]
    exact decrypt_encryptRaw hk (hval i) (ne_nil_of_length12 (hlen i)) hv

/-- Witness for C6 amended: double sweep of a concrete mixed store equals a
single sweep, and the encrypted record of that store decrypts back. -/
theorem claim6_amended_witness :
    sweep defaultKeyBytes (fun _ => testNonce)
        (sweep defaultKeyBytes (fun _ => testNonce) [(1, testSSN), (2, [97, 58, 98])]) =
      sweep defaultKeyBytes (fun _ => testNonce) [(1, testSSN), (2, [97, 58, 98])] ∧
    decryptE defaultKeyBytes
        ((sweep defaultKeyBytes (fun _ => testNonce) [(1, testSSN), (2, [97, 58, 98])]).get
          ⟨0, by decide⟩).2 =
      .ok testSSN := by
  constructor
  · exact claim6_amended_idempotence.1 defaultKeyBytes (fun _ => testNonce) (fun _ => testNonce)
      [(1, testSSN), (2, [97, 58, 98])]
  · exact claim6_amended_idempotence.2 defaultKeyBytes (fun _ => testNonce)
      [(1, testSSN), (2, [97, 58, 98])] 0 (by decide) (by decide)
      (fun _ => (by decide : testNonce.length = 12))
      (fun _ => (by decide : ValidBytes testNonce)) (by decide) (by decide)

/-- C7: the envelope produced by encrypt splits on the colon into exactly
three segments, each entirely hex characters of even length, whose decoded
byte lengths are 12 (nonce), the plaintext's UTF-8 byte length
(ciphertext), and 16 (tag); consequently it also passes the spec's
structural-envelope predicate. -/
theorem claim7_envelope_shape (key nonce p : Bytes) (hn : nonce.length = 12)
    (hvn : ValidBytes nonce) (hvp : ValidBytes p) :
    ∃ a b c : Bytes, splitOnB colon (encryptRaw key nonce p) = [a, b, c] ∧
      isHexStrB a = true ∧ isHexStrB b = true ∧ isHexStrB c = true ∧
      (hexDecode a).length = 12 ∧ (hexDecode b).length = p.length ∧
      (hexDecode c).length = 16 ∧
      specStructuralEnvelope (encryptRaw key nonce p) = true := by
  have hvc : ValidBytes (ctrXor key nonce 0 p) := ctrXor_valid hvp 0
  have hvt : ValidBytes (tagBytes key nonce (ctrXor key nonce 0 p)) := tagBytes_valid key nonce _
  have hsplit : splitOnB colon (encryptRaw key nonce p) =
      [hexEnc nonce, hexEnc (ctrXor key nonce 0 p),
       hexEnc (tagBytes key nonce (ctrXor key nonce 0 p))] := by
    unfold encryptRaw
    exact splitOnB_mkEnvelope _ _ _
  refine ⟨hexEnc nonce, hexEnc (ctrXor key nonce 0 p),
    hexEnc (tagBytes key nonce (ctrXor key nonce 0 p)), hsplit,
    isHexStrB_hexEnc hvn, isHexStrB_hexEnc hvc, isHexStrB_hexEnc hvt, ?_, ?_, ?_, ?_⟩
  · rw [hexDecode_hexEnc hvn, hn]
  · rw [hexDecode_hexEnc hvc, ctrXor_length]
  · rw [hexDecode_hexEnc hvt, tagBytes_length]
  · unfold specStructuralEnvelope
    rw [hsplit]
    simp only [isHexStrB_hexEnc hvn, isHexStrB_hexEnc hvc, isHexStrB_hexEnc hvt,
      hexDecode_hexEnc hvn, hexDecode_hexEnc hvt, hn, tagBytes_length]
    decide

/-- Witness for C7 at the default key, the concrete nonce and test SSN. -/
theorem claim7_envelope_shape_witness :
    ∃ a b c : Bytes, splitOnB colon (encryptRaw defaultKeyBytes testNonce testSSN) = [a, b, c] ∧
      isHexStrB a = true ∧ isHexStrB b = true ∧ isHexStrB c = true ∧
      (hexDecode a).length = 12 ∧ (hexDecode b).length = testSSN.length ∧
      (hexDecode c).length = 16 ∧
      specStructuralEnvelope (encryptRaw defaultKeyBytes testNonce testSSN) = true :=
  claim7_envelope_shape defaultKeyBytes testNonce testSSN (by decide) (by decide) (by decide)

/-- C8 counterexample: the 5-byte key "short" resolves without any error or
rejection — resolution returns it unchanged — so wrong-length keys are not
a fatal configuration failure; the failure only appears per operation, when
encrypt is attempted with the resolved key. -/
theorem claim8_counterexample :
    resolveKey (some [115, 104, 111, 114, 116]) = [115, 104, 111, 114, 116] ∧
    ([115, 104, 111, 114, 116] : Bytes).length ≠ 32 ∧
    encryptE [115, 104, 111, 114, 116] testNonce testSSN = .error .invalidKeyLength := by
  exact ⟨rfl, by decide, by decide⟩

/-- C8 amended: key resolution performs no length validation and never
fails — a configured key of any length is returned as-is — and a key whose
length differs from 32 bytes is rejected only per operation, when
`createCipheriv`/`createDecipheriv` runs inside each call: every encrypt
call errors with the invalid-key-length error, and so does every decrypt
call on an envelope-shaped input whose first segment decodes to a nonempty
IV (`createDecipheriv` rejects an empty IV before it looks at the key, so
only inputs with a decodable IV reach the key-length check). -/
theorem claim8_amended_per_operation (k nonce p n c t : Bytes) (hk : k.length ≠ 32)
    (hn : ValidBytes n) (hne : n ≠ []) (hc : ValidBytes c) (ht : ValidBytes t) :
    resolveKey (some k) = k ∧
    encryptE k nonce p = .error .invalidKeyLength ∧
    decryptE k (mkEnvelope n c t) = .error .invalidKeyLength := by
  refine ⟨rfl, ?_, ?_⟩
  · unfold encryptE
    rw [if_neg hk]
  · unfold decryptE
    rw [splitOnB_mkEnvelope]
    simp only [hexDecode_hexEnc hn, hexDecode_hexEnc hc, hexDecode_hexEnc ht]
    rw [if_neg (by simp [List.length_eq_zero, hne]), if_pos hk]

/-- Witness for C8 amended at the key "short" and a concrete envelope with
a 12-byte IV (the envelope encrypt itself would produce for testSSN). -/
theorem claim8_amended_witness :
    resolveKey (some [115, 104, 111, 114, 116]) = [115, 104, 111, 114, 116] ∧
    encryptE [115, 104, 111, 114, 116] testNonce testSSN = .error .invalidKeyLength ∧
    decryptE [115, 104, 111, 114, 116]
        (mkEnvelope testNonce (ctrXor defaultKeyBytes testNonce 0 testSSN)
          (tagBytes defaultKeyBytes testNonce (ctrXor defaultKeyBytes testNonce 0 testSSN))) =
      .error .invalidKeyLength :=
  claim8_amended_per_operation [115, 104, 111, 114, 116] testNonce testSSN
    testNonce (ctrXor defaultKeyBytes testNonce 0 testSSN)
    (tagBytes defaultKeyBytes testNonce (ctrXor defaultKeyBytes testNonce 0 testSSN))
    (by decide) (by decide) (by decide) (by decide) (by decide)

/-- C9 counterexample: with the external key configuration absent, key
resolution neither fails nor emits any warning — it silently returns the
hard-coded default key with an empty log — exactly the silent handling the
claim rules out. -/
theorem claim9_counterexample :
    resolveKeyLog none = (defaultKeyBytes, []) ∧ defaultKeyBytes.length = 32 :=
  ⟨rfl, by decide⟩

/-- C9 amended: when the configured key is absent, resolution silently
falls back to the hard-coded 32-byte default "0123456789abcdef0123456789abcdef";
no warning is emitted for any configuration and no failure path exists. -/
theorem claim9_amended_silent_fallback :
    (∀ env : Option Bytes, (resolveKeyLog env).2 = []) ∧
    resolveKey none = defaultKeyBytes ∧ defaultKeyBytes.length = 32 :=
  ⟨fun _ => rfl, rfl, by decide⟩

/-- C10: any record whose stored value contains a colon anywhere — valid
envelope or not — is left byte-for-byte unchanged by the sweep, so such
plaintext values stay unencrypted on every run. -/
theorem claim10_colon_frame (key : Bytes) (nonces : Nat → Bytes)
    (store : List Record) (i : Nat) (h : i < store.length)
    (hc : (store.get ⟨i, h⟩).2.contains colon = true) :
    (sweep key nonces store).get ⟨i, by rw [sweep_length]; exact h⟩ = store.get ⟨i, h⟩ := by
  rw [sweep_get key nonces store i h]
  have hse : shouldEncrypt (store.get ⟨i, h⟩).2 = false := by
    unfold shouldEncrypt
    rw [hc]
    simp
  rw [hse]
  simp

/-- Witness for C10 on a one-record store holding the non-envelope value
"a:b". -/
theorem claim10_colon_frame_witness :
    (sweep defaultKeyBytes (fun _ => testNonce) [(7, [97, 58, 98])]).get ⟨0, by decide⟩ =
      (7, [97, 58, 98]) :=
  claim10_colon_frame defaultKeyBytes (fun _ => testNonce) [(7, [97, 58, 98])] 0
    (by decide) (by decide)

end SecureBank
